import Mathlib

/-!
Verification of the streaming acquisition / spectral-analysis scripts
`fft.py` (text-framed, timestamped) and `fft2.py` (binary-framed).

The data model is shallowly embedded: the numpy buffers become `List ℚ`
(exact rationals in place of IEEE doubles, except for the spectral
analyzer where `ℝ`/`ℂ` are used), text lines become `List Char`, and the
byte stream becomes `List ℕ`.  Every definition mirrors a specific place
in the source, cited in its doc comment.
-/

namespace Fft

/-! ## Sliding window buffer (fft.py lines 124-125, fft2.py lines 55-56) -/

/-- One push into the sliding window: `x[:-1] = x[1:]` followed by
`x[-1] = v` — shift the whole buffer left by one and write the new sample
into the last slot. -/
def push {α : Type} (buf : List α) (v : α) : List α :=
  buf.tail ++ [v]

/-- Pushing a whole sequence of decoded samples, in order. -/
def pushMany {α : Type} (buf : List α) (samples : List α) : List α :=
  samples.foldl push buf

/-- Element-write cost of one push: the slice assignment `x[:-1] = x[1:]`
copies `length - 1` elements and `x[-1] = v` writes one more, so a push
into a buffer of length `n` performs `n` element writes. -/
def pushCost {α : Type} (buf : List α) : ℕ := buf.length

/-- Total element-write cost of a sequence of pushes. -/
def pushManyCost {α : Type} : List α → List α → ℕ
  | _, [] => 0
  | buf, v :: vs => pushCost buf + pushManyCost (push buf v) vs

/-- The complexity claim, formalised: there are constants `c`, `c0` such
that for every starting buffer and every sequence of pushes the total
element-write cost is at most `c * (number of pushes) + c0`
(amortized O(1) per push, uniformly in the buffer length). -/
def pushO1Amortized : Prop :=
  ∃ c c0 : ℕ, ∀ buf samples : List ℚ,
    pushManyCost buf samples ≤ c * samples.length + c0

/-! ## Text-line parsing (fft.py lines 43-67) -/

/-- Python whitespace characters for `str.strip` (ASCII model). -/
def isPySpace (c : Char) : Bool :=
  c = ' ' || c = '\t' || c = '\n' || c = '\r' || c = '\x0b' || c = '\x0c'

/-- `line.strip()`: drop leading and trailing whitespace. -/
def pyStrip (s : List Char) : List Char :=
  ((s.dropWhile isPySpace).reverse.dropWhile isPySpace).reverse

/-- Digit tail of Python `int` parsing: after an initial digit has been
consumed into `acc`, consume further digits, allowing a single underscore
only between two digits (Python's digit-group rule).  Any other character,
a trailing underscore or a doubled underscore fails. -/
def pyDigits : ℕ → List Char → Option ℕ
  | acc, [] => some acc
  | acc, c :: cs =>
    if c.isDigit then pyDigits (10 * acc + (c.toNat - 48)) cs
    else if c = '_' then
      match cs with
      | c2 :: cs2 =>
        if c2.isDigit then pyDigits (10 * acc + (c2.toNat - 48)) cs2 else none
      | [] => none
    else none

/-- Unsigned decimal part of Python `int`: a leading digit then `pyDigits`. -/
def pyNat : List Char → Option ℕ
  | [] => none
  | c :: cs => if c.isDigit then pyDigits (c.toNat - 48) cs else none

/-- Python `int(s)` on a text field (ASCII model): strip whitespace, an
optional single sign, then a nonempty digit sequence; anything else raises
`ValueError`, modelled as `none` (an empty or sign-only field fails via
`pyNat [] = none`). -/
def pyInt (s : List Char) : Option ℤ :=
  let stripped := pyStrip s
  if stripped.head? = some '+' then (pyNat stripped.tail).map Int.ofNat
  else if stripped.head? = some '-' then
    (pyNat stripped.tail).map fun n : ℕ => -(n : ℤ)
  else (pyNat stripped).map Int.ofNat

/-- `line.split(",", 1)` when a comma is present: the part before the
first comma and the part after it; `none` when the line has no comma. -/
def splitComma : List Char → Option (List Char × List Char)
  | [] => none
  | c :: cs =>
    if c = ',' then some ([], cs)
    else (splitComma cs).map fun p => (c :: p.1, p.2)

/-- `parse_line` (fft.py lines 43-67): strip the line; an empty line gives
`(None, None)`; a line with a comma is split at the first comma and both
fields parsed as integers, giving `(millis / 1000.0, adc)` on success and
`(None, None)` on `ValueError`; a bare line parses as one integer, giving
`(None, adc)` on success and `(None, None)` otherwise. -/
def parse_line (line : List Char) : Option ℚ × Option ℤ :=
  let stripped := pyStrip line
  if stripped = [] then (none, none)
  else
    match splitComma stripped with
    | some (a, b) =>
      match pyInt a, pyInt b with
      | some t_ms, some adc => (some ((t_ms : ℚ) / 1000), some adc)
      | _, _ => (none, none)
    | none =>
      match pyInt stripped with
      | some adc => (none, some adc)
      | none => (none, none)

/-- Canonical decimal digit characters of `n`, most significant first,
prepended to `acc` (used to build concrete valid lines).  The first
argument is recursion fuel; any fuel above `n` is enough. -/
def natChars : ℕ → ℕ → List Char → List Char
  | 0, _, acc => acc
  | fuel + 1, n, acc =>
    if n < 10 then Char.ofNat (48 + n % 10) :: acc
    else natChars fuel (n / 10) (Char.ofNat (48 + n % 10) :: acc)

/-- Canonical decimal string of a natural number. -/
def natToChars (n : ℕ) : List Char := natChars (n + 1) n []

/-- Canonical decimal string of an integer. -/
def intToChars : ℤ → List Char
  | Int.ofNat n => natToChars n
  | Int.negSucc n => '-' :: natToChars (n + 1)

/-! ## Configuration constants (fft.py lines 29-35) -/

def FS_FALLBACK : ℚ := 1000

def VREF : ℚ := 5

def ADC_BITS : ℕ := 10

/-- `adc_to_volts` (fft.py lines 40-41): `adc / (2**ADC_BITS - 1) * VREF`. -/
def adc_to_volts (adc : ℤ) : ℚ :=
  (adc : ℚ) / (2 ^ ADC_BITS - 1) * VREF

/-! ## Sample-rate estimation (fft.py lines 143-145) -/

/-- `np.diff`: consecutive differences of the timestamp buffer. -/
def deltas : List ℚ → List ℚ
  | x :: y :: rest => (y - x) :: deltas (y :: rest)
  | _ => []

/-- `dt[(dt > 0) & (dt < 1.0)]` (fft.py line 144): keep sane deltas. -/
def validDeltas (t : List ℚ) : List ℚ :=
  (deltas t).filter fun d => decide (0 < d) && decide (d < 1)

/-- `np.median` over ℚ: sort ascending, take the middle element (odd
length) or the mean of the two middle elements (even length).  The empty
case yields 0; it is unreachable in `estimate_fs`, which guards
`dt.size > 10` (numpy itself would produce NaN there). -/
def median (l : List ℚ) : ℚ :=
  let s := l.insertionSort (· ≤ ·)
  if s.length % 2 = 1 then (s[s.length / 2]?).getD 0
  else ((s[s.length / 2 - 1]?).getD 0 + (s[s.length / 2]?).getD 0) / 2

/-- fft.py line 145: `fs = 1.0 / np.median(dt) if dt.size > 10 else
FS_FALLBACK`, applied to the filtered deltas of the timestamp buffer. -/
def estimate_fs (t : List ℚ) (fallback : ℚ) : ℚ :=
  let dt := validDeltas t
  if 10 < dt.length then 1 / median dt else fallback

/-- Timestamps with constant spacing `d`: `a, a + d, ..., a + m*d`
(`m + 1` timestamps, hence `m` deltas). -/
def arithSeq (a d : ℚ) : ℕ → List ℚ
  | 0 => [a]
  | m + 1 => a :: arithSeq (a + d) d m

/-! ## Text-mode acquisition loop state (fft.py lines 80-138, 141-153) -/

/-- The mutable state of fft.py's main loop (plotting excluded): the
voltage window `x`, the timestamp window `t`, the `have_timestamps` flag,
and the two counters. -/
structure TextState where
  x : List ℚ
  t : List ℚ
  have_timestamps : Bool
  sample_count : ℕ
  new_samples : ℕ
deriving DecidableEq

/-- Initial state (fft.py lines 80-86, 116): both windows zero-filled. -/
def initText (N : ℕ) : TextState :=
  ⟨List.replicate N 0, List.replicate N 0, false, 0, 0⟩

/-- One iteration of fft.py's loop body (lines 119-138) on an already
parsed `(t_s, adc)` pair: skip when `adc is None`; otherwise push the
voltage, push the timestamp and latch `have_timestamps` when a timestamp
is present (else bump `sample_count`), bump `new_samples` and reset it
when it reaches `HOP` (the analysis branch fires there). -/
def sampleStep (HOP : ℕ) (s : TextState) (p : Option ℚ × Option ℤ) : TextState :=
  match p.2 with
  | none => s
  | some adc =>
    let s1 : TextState :=
      match p.1 with
      | some ts =>
        { s with x := push s.x (adc_to_volts adc), t := push s.t ts,
                 have_timestamps := true }
      | none =>
        { s with x := push s.x (adc_to_volts adc),
                 sample_count := s.sample_count + 1 }
    if HOP ≤ s1.new_samples + 1 then { s1 with new_samples := 0 }
    else { s1 with new_samples := s1.new_samples + 1 }

/-- One loop iteration on a raw line: parse, then `sampleStep`. -/
def textStep (HOP : ℕ) (s : TextState) (line : List Char) : TextState :=
  sampleStep HOP s (parse_line line)

/-- Run the loop over a sequence of raw lines. -/
def runText (HOP : ℕ) (s : TextState) (lines : List (List Char)) : TextState :=
  lines.foldl (textStep HOP) s

/-- Run the loop over a sequence of already parsed pairs. -/
def runSamples (HOP : ℕ) (s : TextState) (ps : List (Option ℚ × Option ℤ)) : TextState :=
  ps.foldl (sampleStep HOP) s

/-- The sampling rate the analysis branch uses (fft.py lines 141-153):
the timestamp-based estimate when `have_timestamps` is set, else the
fallback unconditionally. -/
def fsForCycle (s : TextState) : ℚ :=
  if s.have_timestamps then estimate_fs s.t FS_FALLBACK else FS_FALLBACK

/-- Modelled from the spec ("a parallel fixed-capacity buffer of the same
length tracks timestamps with identical eviction timing, index-aligned
with the value buffer at all times"): the ideal buffer of
(optional timestamp, value) pairs pushed in lockstep. -/
def alignedStep (b : List (Option ℚ × ℚ)) (p : Option ℚ × Option ℤ) :
    List (Option ℚ × ℚ) :=
  match p.2 with
  | none => b
  | some adc => push b (p.1, adc_to_volts adc)

/-- Ideal aligned run from the zero-filled initial window. -/
def alignedRun (N : ℕ) (ps : List (Option ℚ × Option ℤ)) : List (Option ℚ × ℚ) :=
  ps.foldl alignedStep (List.replicate N (none, 0))

/-- Claim C6, formalised: after any input sequence the code's timestamp
buffer has the length of the ideal aligned buffer and holds, at every
index carrying a timestamped sample, that sample's timestamp. -/
def tsAligned (N HOP : ℕ) (ps : List (Option ℚ × Option ℤ)) : Prop :=
  (runSamples HOP (initText N) ps).t.length = (alignedRun N ps).length ∧
  ∀ (i : ℕ) (τ v : ℚ), (alignedRun N ps)[i]? = some (some τ, v) →
    (runSamples HOP (initText N) ps).t[i]? = some τ

/-! ## Binary framing and loop (fft2.py lines 37-60) -/

/-- One unsigned 16-bit little-endian integer from two bytes
(`np.frombuffer(..., dtype=np.uint16)` on a little-endian stream). -/
def u16le (lo hi : ℕ) : ℕ := lo + 256 * hi

/-- fft2.py lines 47-52: split the accumulated bytes into the decoded
samples of the complete 2-byte groups, in stream order, and the
remaining trailing bytes (the new `pending`). -/
def decodePairs : List ℕ → List ℕ × List ℕ
  | lo :: hi :: rest =>
    let r := decodePairs rest
    (u16le lo hi :: r.1, r.2)
  | rest => ([], rest)

/-- The mutable state of fft2.py's loop: sample window, carry-over bytes,
and the hop counter. -/
structure BinState where
  buf : List ℚ
  pending : List ℕ
  new : ℕ
deriving DecidableEq

/-- Per-sample body of fft2.py's inner `for s in data` loop
(lines 54-60): push `float(s)`, bump `new`, reset at `HOP` (the analysis
branch fires there). -/
def pushSample (HOP : ℕ) (st : List ℚ × ℕ) (v : ℚ) : List ℚ × ℕ :=
  if HOP ≤ st.2 + 1 then (push st.1 v, 0) else (push st.1 v, st.2 + 1)

/-- One iteration of fft2.py's outer loop (lines 41-60) on one read
chunk: an empty read changes nothing; otherwise append the chunk to
`pending`, decode every complete 2-byte group, keep the remainder as the
new `pending`, and push each decoded sample. -/
def binStep (HOP : ℕ) (st : BinState) (chunk : List ℕ) : BinState :=
  if chunk = [] then st
  else
    let r := decodePairs (st.pending ++ chunk)
    let bn := (r.1.map fun v => (v : ℚ)).foldl (pushSample HOP) (st.buf, st.new)
    ⟨bn.1, r.2, bn.2⟩

/-- The decoder-level loop: process the chunks in order, threading the
carry-over bytes, and collect every decoded sample value in order. -/
def runDecode : List ℕ → List (List ℕ) → List ℕ × List ℕ
  | p, [] => ([], p)
  | p, c :: cs =>
    let r := decodePairs (p ++ c)
    let rest := runDecode r.2 cs
    (r.1 ++ rest.1, rest.2)

/-! ## Spectral analyzer (fft.py lines 163-172, fft2.py lines 68-72) -/

noncomputable section

/-- `np.hanning N`: `0.5 - 0.5*cos(2*pi*n/(N-1))` for `n = 0..N-1`
(numpy returns `[]` for `N = 0` and `[1.]` for `N = 1`). -/
def hanning : ℕ → List ℝ
  | 0 => []
  | 1 => [1]
  | N => (List.range N).map fun n =>
      0.5 - 0.5 * Real.cos (2 * Real.pi * n / ((N : ℝ) - 1))

/-- `coherent_gain = np.mean(hann)` (fft.py line 170, fft2.py line 70):
the arithmetic mean of the window coefficients. -/
def coherent_gain (N : ℕ) : ℝ := (hanning N).sum / N

/-- Bin `k` of `np.fft.rfft` on a length-`N` input:
`X[k] = Σ_{n<N} x[n] * exp(-2πi·k·n/N)`. -/
def rfftBin (N : ℕ) (x : List ℝ) (k : ℕ) : ℂ :=
  ∑ n ∈ Finset.range N,
    ((x.getD n 0 : ℝ) : ℂ) *
      Complex.exp (-(2 * (Real.pi : ℂ) * Complex.I * k * n) / N)

/-- `np.fft.rfft`: the one-sided transform, bins `0 .. N/2`. -/
def rfft (N : ℕ) (x : List ℝ) : List ℂ :=
  (List.range (N / 2 + 1)).map (rfftBin N x)

/-- The shared tail of both scripts' analysis blocks: `X = rfft(xw)`,
`mag = abs(X) / (N * coherent_gain) * 2.0`, `mag[0] *= 0.5`. -/
def magPipeline (N : ℕ) (xw : List ℝ) : List ℝ :=
  let X := rfft N xw
  let mag := X.map fun z => Complex.abs z / (N * coherent_gain N) * 2
  mag.modifyHead (· * 0.5)

/-- fft.py lines 163-172: `xw = x * hann`, then the shared pipeline. -/
def magText (N : ℕ) (x : List ℝ) : List ℝ :=
  magPipeline N (List.zipWith (· * ·) x (hanning N))

/-- fft2.py lines 68-72: `xw = (buf - np.mean(buf)) * hann`, then the
shared pipeline. -/
def magBin (N : ℕ) (buf : List ℝ) : List ℝ :=
  magPipeline N
    (List.zipWith (· * ·) (buf.map fun v => v - buf.sum / buf.length) (hanning N))

/-- Modelled from the spec's words, for comparison with the code:
`magnitude[k] = |X[k]| / (N * coherent_gain) * 2.0` where `X` is the
one-sided DFT of the windowed signal, with the DC bin additionally
halved after this scaling. -/
def specMagnitude (N : ℕ) (xw : List ℝ) (k : ℕ) : ℝ :=
  (Complex.abs (rfftBin N xw k) / (N * coherent_gain N) * 2) *
    (if k = 0 then 0.5 else 1)

end

/-! ## Theorems -/

theorem push_length {α : Type} (buf : List α) (v : α) (h : buf ≠ []) :
    (push buf v).length = buf.length := by
  cases buf with
  | nil => exact absurd rfl h
  | cons a l => simp [push]

theorem push_ne_nil {α : Type} (buf : List α) (v : α) : push buf v ≠ [] := by
  simp [push]

theorem pushMany_eq_drop {α : Type} (samples : List α) :
    ∀ buf : List α, buf ≠ [] →
      pushMany buf samples = (buf ++ samples).drop samples.length := by
  induction samples with
  | nil => intro buf _; simp [pushMany]
  | cons v vs ih =>
    intro buf h
    cases buf with
    | nil => exact absurd rfl h
    | cons b bt =>
      have h2 := ih (push (b :: bt) v) (push_ne_nil _ v)
      simp only [pushMany, List.foldl_cons] at h2 ⊢
      rw [h2]
      simp [push, List.append_assoc]

theorem pushMany_length {α : Type} (samples : List α) :
    ∀ buf : List α, buf ≠ [] →
      (pushMany buf samples).length = buf.length := by
  induction samples with
  | nil => intro buf _; simp [pushMany]
  | cons v vs ih =>
    intro buf h
    have h2 := ih (push buf v) (push_ne_nil _ v)
    simp only [pushMany, List.foldl_cons] at h2 ⊢
    rw [h2, push_length buf v h]

theorem drop_append_length {α : Type} :
    ∀ (l1 l2 : List α) (n : ℕ), (l1 ++ l2).drop (l1.length + n) = l2.drop n := by
  intro l1
  induction l1 with
  | nil => intro l2 n; simp
  | cons a l ih =>
    intro l2 n
    simp only [List.cons_append, List.length_cons, Nat.succ_add, List.drop_succ_cons]
    exact ih l2 n

/-- C1: starting from the zero-filled window of length `N`, pushing any
`k ≥ N` samples leaves the buffer holding exactly the last `N` samples in
oldest-first order, and after every prefix of the pushes the buffer's
length is exactly `N` (each push evicts exactly the oldest element). -/
theorem C1_sliding_window (N : ℕ) (samples : List ℚ) (hN : 1 ≤ N)
    (hk : N ≤ samples.length) :
    pushMany (List.replicate N 0) samples = samples.drop (samples.length - N) ∧
    ∀ k : ℕ, (pushMany (List.replicate N 0) (samples.take k)).length = N := by
  have hne : (List.replicate N (0 : ℚ)) ≠ [] := by
    intro h
    have h2 := congrArg List.length h
    simp at h2
    omega
  constructor
  · rw [pushMany_eq_drop samples _ hne]
    have h3 : samples.length
        = (List.replicate N (0 : ℚ)).length + (samples.length - N) := by
      simp only [List.length_replicate]
      omega
    conv_lhs => rw [h3]
    rw [drop_append_length]
  · intro k
    rw [pushMany_length _ _ hne]
    simp

theorem C1_sliding_window_witness :
    pushMany (List.replicate 2 (0 : ℚ)) [1, 2, 3]
        = [(1 : ℚ), 2, 3].drop ([(1 : ℚ), 2, 3].length - 2) ∧
    (pushMany (List.replicate 2 (0 : ℚ)) ([(1 : ℚ), 2, 3].take 2)).length = 2 :=
  ⟨(C1_sliding_window 2 [1, 2, 3] (by decide) (by decide)).1,
   (C1_sliding_window 2 [1, 2, 3] (by decide) (by decide)).2 2⟩

/-- C8, counterexample: the push loop is not O(1) amortized uniformly in
the buffer length — the shift-left slice assignment copies the whole
buffer, so for any proposed constants `c`, `c0` a single push into a
buffer of length `c + c0 + 1` already costs more than `c * 1 + c0`. -/
theorem C8_counterexample : ¬ pushO1Amortized := by
  rintro ⟨c, c0, h⟩
  have h1 := h (List.replicate (c + c0 + 1) 0) [0]
  simp [pushManyCost, pushCost] at h1

/-- C8, amended: each push into the length-`N` window performs exactly
`N` element writes (`N - 1` copied by `x[:-1] = x[1:]` plus the new
sample), so a sequence of `k` pushes costs exactly `N * k` writes —
amortized Θ(N) per sample, not O(1) in the window length. -/
theorem C8_push_cost (buf : List ℚ) (samples : List ℚ) (h : buf ≠ []) :
    pushManyCost buf samples = buf.length * samples.length := by
  induction samples generalizing buf with
  | nil => simp [pushManyCost]
  | cons v vs ih =>
    simp only [pushManyCost, pushCost, ih (push buf v) (push_ne_nil _ v),
      push_length buf v h, List.length_cons]
    ring

theorem C8_push_cost_witness :
    pushManyCost ([0, 0] : List ℚ) [5, 6, 7]
      = ([(0 : ℚ), 0] : List ℚ).length * [(5 : ℚ), 6, 7].length :=
  C8_push_cost [0, 0] [5, 6, 7] (by decide)

/-! ### Text-line parsing -/

theorem digitChar_spec (m : ℕ) (h : m < 10) :
    (Char.ofNat (48 + m)).isDigit = true ∧ (Char.ofNat (48 + m)).toNat - 48 = m := by
  interval_cases m <;> exact ⟨by decide, by decide⟩

theorem digit_char_props (c : Char) (h : c.isDigit = true) :
    c ≠ ',' ∧ c ≠ '+' ∧ c ≠ '-' ∧ c ≠ '_' ∧ isPySpace c = false := by
  refine ⟨?_, ?_, ?_, ?_, ?_⟩
  · intro he; rw [he] at h; exact absurd h (by decide)
  · intro he; rw [he] at h; exact absurd h (by decide)
  · intro he; rw [he] at h; exact absurd h (by decide)
  · intro he; rw [he] at h; exact absurd h (by decide)
  · cases hs : isPySpace c with
    | false => rfl
    | true =>
      have hs2 : c = ' ' ∨ c = '\t' ∨ c = '\n' ∨ c = '\x0d' ∨ c = '\x0b' ∨ c = '\x0c' := by
        simpa [isPySpace, or_assoc] using hs
      rcases hs2 with h1 | h1 | h1 | h1 | h1 | h1 <;>
        (rw [h1] at h; exact absurd h (by decide))

theorem natChars_head : ∀ (fuel n : ℕ) (acc : List Char), n < fuel →
    ∃ c l, natChars fuel n acc = c :: l ∧ c.isDigit = true := by
  intro fuel
  induction fuel with
  | zero => intro n acc h; omega
  | succ fuel ih =>
    intro n acc hn
    simp only [natChars]
    split
    · exact ⟨_, _, rfl, (digitChar_spec (n % 10) (by omega)).1⟩
    · exact ih (n / 10) _ (by omega)

theorem natChars_all_digits : ∀ (fuel n : ℕ) (acc : List Char), n < fuel →
    (∀ c ∈ acc, c.isDigit = true) →
    ∀ c ∈ natChars fuel n acc, c.isDigit = true := by
  intro fuel
  induction fuel with
  | zero => intro n acc h; omega
  | succ fuel ih =>
    intro n acc hn hacc
    simp only [natChars]
    split
    · intro c hc
      rcases List.mem_cons.1 hc with h1 | h1
      · rw [h1]; exact (digitChar_spec (n % 10) (by omega)).1
      · exact hacc c h1
    · refine ih (n / 10) _ (by omega) ?_
      intro c hc
      rcases List.mem_cons.1 hc with h1 | h1
      · rw [h1]; exact (digitChar_spec (n % 10) (by omega)).1
      · exact hacc c h1

theorem pyNat_cons (c : Char) (cs : List Char) (h : c.isDigit = true) :
    pyNat (c :: cs) = pyDigits (c.toNat - 48) cs := by
  simp [pyNat, h]

theorem pyDigits_cons (acc : ℕ) (c : Char) (cs : List Char) (h : c.isDigit = true) :
    pyDigits acc (c :: cs) = pyDigits (10 * acc + (c.toNat - 48)) cs := by
  rw [pyDigits.eq_def]
  simp [h]

theorem natChars_pyNat : ∀ (fuel n : ℕ) (acc : List Char), n < fuel →
    pyNat (natChars fuel n acc) = pyDigits n acc := by
  intro fuel
  induction fuel with
  | zero => intro n acc h; omega
  | succ fuel ih =>
    intro n acc hn
    have hd := digitChar_spec (n % 10) (by omega)
    simp only [natChars]
    split
    · rw [pyNat_cons _ _ hd.1, hd.2, Nat.mod_eq_of_lt (by omega)]
    · rw [ih (n / 10) _ (by omega), pyDigits_cons _ _ _ hd.1, hd.2]
      congr 1
      omega

theorem natToChars_pyNat (n : ℕ) : pyNat (natToChars n) = some n := by
  rw [natToChars, natChars_pyNat (n + 1) n [] (by omega)]
  rfl

theorem natToChars_all_digits (n : ℕ) : ∀ c ∈ natToChars n, c.isDigit = true :=
  natChars_all_digits (n + 1) n [] (by omega) (by simp)

theorem natToChars_ne_nil (n : ℕ) : natToChars n ≠ [] := by
  obtain ⟨c, l, h, _⟩ := natChars_head (n + 1) n [] (by omega)
  rw [natToChars, h]
  exact List.cons_ne_nil c l

theorem intToChars_ne_nil (k : ℤ) : intToChars k ≠ [] := by
  cases k with
  | ofNat n => exact natToChars_ne_nil n
  | negSucc n => exact List.cons_ne_nil _ _

theorem intToChars_head (k : ℤ) :
    ∃ c l, intToChars k = c :: l ∧ isPySpace c = false ∧ c ≠ ',' := by
  cases k with
  | ofNat n =>
    obtain ⟨c, l, h, hd⟩ := natChars_head (n + 1) n [] (by omega)
    refine ⟨c, l, h, (digit_char_props c hd).2.2.2.2, (digit_char_props c hd).1⟩
  | negSucc n =>
    exact ⟨'-', natToChars (n + 1), rfl, by decide, by decide⟩

theorem intToChars_getLast_digit (k : ℤ) (c : Char)
    (h : (intToChars k).getLast? = some c) : c.isDigit = true := by
  cases k with
  | ofNat n => exact natToChars_all_digits n c (List.mem_of_mem_getLast? h)
  | negSucc n =>
    rw [show intToChars (Int.negSucc n) = ['-'] ++ natToChars (n + 1) from rfl,
      List.getLast?_append_of_ne_nil _ (natToChars_ne_nil (n + 1))] at h
    exact natToChars_all_digits (n + 1) c (List.mem_of_mem_getLast? h)

theorem intToChars_no_comma (k : ℤ) : ∀ c ∈ intToChars k, c ≠ ',' := by
  cases k with
  | ofNat n =>
    intro c hc
    exact (digit_char_props c (natToChars_all_digits n c hc)).1
  | negSucc n =>
    intro c hc
    rcases List.mem_cons.1 hc with h1 | h1
    · rw [h1]; decide
    · exact (digit_char_props c (natToChars_all_digits (n + 1) c h1)).1

theorem dropWhile_eq_self_of_head {α : Type} {p : α → Bool} :
    ∀ l : List α, (∀ c, l.head? = some c → p c = false) → l.dropWhile p = l
  | [], _ => rfl
  | c :: cs, h => by simp [List.dropWhile_cons, h c rfl]

theorem pyStrip_eq_self (l : List Char)
    (h1 : ∀ c, l.head? = some c → isPySpace c = false)
    (h2 : ∀ c, l.getLast? = some c → isPySpace c = false) :
    pyStrip l = l := by
  rw [pyStrip, dropWhile_eq_self_of_head l h1,
    dropWhile_eq_self_of_head l.reverse
      (fun c hc => h2 c (by rwa [List.head?_reverse] at hc)),
    List.reverse_reverse]

theorem pyStrip_intToChars_pair (t a : ℤ) :
    pyStrip (intToChars t ++ ',' :: intToChars a)
      = intToChars t ++ ',' :: intToChars a := by
  obtain ⟨c, l, hc, hcs, _⟩ := intToChars_head t
  apply pyStrip_eq_self
  · intro d hd
    rw [hc] at hd
    simp only [List.cons_append, List.head?_cons, Option.some.injEq] at hd
    rw [← hd]; exact hcs
  · intro d hd
    rw [List.getLast?_append_of_ne_nil _ (List.cons_ne_nil _ _),
      show (',' :: intToChars a) = [','] ++ intToChars a from rfl,
      List.getLast?_append_of_ne_nil _ (intToChars_ne_nil a)] at hd
    exact (digit_char_props d (intToChars_getLast_digit a d hd)).2.2.2.2

theorem pyStrip_intToChars (k : ℤ) : pyStrip (intToChars k) = intToChars k := by
  obtain ⟨c, l, hc, hcs, _⟩ := intToChars_head k
  apply pyStrip_eq_self
  · intro d hd
    rw [hc] at hd
    simp only [List.head?_cons, Option.some.injEq] at hd
    rw [← hd]; exact hcs
  · intro d hd
    exact (digit_char_props d (intToChars_getLast_digit k d hd)).2.2.2.2

theorem pyInt_intToChars (k : ℤ) : pyInt (intToChars k) = some k := by
  cases k with
  | ofNat n =>
    obtain ⟨c, l, hc, hd⟩ := natChars_head (n + 1) n [] (by omega)
    have hc' : natToChars n = c :: l := hc
    have hp := digit_char_props c hd
    have hps : pyStrip (natToChars n) = natToChars n :=
      pyStrip_intToChars (Int.ofNat n)
    have hps' : pyStrip (c :: l) = c :: l := by rw [← hc']; exact hps
    show pyInt (natToChars n) = some (Int.ofNat n)
    rw [hc']
    simp only [pyInt, hps', List.head?_cons, List.tail_cons, Option.some.injEq]
    rw [if_neg hp.2.1, if_neg hp.2.2.1, ← hc', natToChars_pyNat]
    rfl
  | negSucc n =>
    have hps : pyStrip ('-' :: natToChars (n + 1)) = '-' :: natToChars (n + 1) :=
      pyStrip_intToChars (Int.negSucc n)
    show pyInt ('-' :: natToChars (n + 1)) = some (Int.negSucc n)
    simp only [pyInt, hps, List.head?_cons, List.tail_cons, Option.some.injEq]
    rw [if_neg (by decide : ¬('-' = '+')), if_pos trivial, natToChars_pyNat]
    simp only [Option.map_some', Option.some.injEq, Int.negSucc_eq]
    push_cast
    ring

theorem splitComma_append (l2 : List Char) :
    ∀ l1 : List Char, (∀ c ∈ l1, c ≠ ',') →
      splitComma (l1 ++ ',' :: l2) = some (l1, l2) := by
  intro l1
  induction l1 with
  | nil => intro _; simp [splitComma]
  | cons c cs ih =>
    intro h
    have h1 := h c (List.mem_cons_self c cs)
    have h2 := ih fun d hd => h d (List.mem_cons_of_mem c hd)
    simp only [List.cons_append, splitComma, if_neg h1, List.append_eq]
    rw [h2]
    rfl

theorem splitComma_none : ∀ l : List Char, (∀ c ∈ l, c ≠ ',') → splitComma l = none := by
  intro l
  induction l with
  | nil => intro _; rfl
  | cons c cs ih =>
    intro h
    simp only [splitComma, if_neg (h c (List.mem_cons_self c cs)),
      ih (fun d hd => h d (List.mem_cons_of_mem c hd)), Option.map_none']

/-- C3: `parse_line` yields `(t/1000, a)` on every canonical `"t,a"` line,
`(None, a)` on every canonical bare-integer line, `(None, None)` on every
empty-after-strip line, on every comma line one of whose fields does not
parse as an integer, and on every bare line that does not parse as an
integer; and whitespace at either end never changes the result. -/
theorem C3_parse_line :
    (∀ t a : ℤ, parse_line (intToChars t ++ ',' :: intToChars a)
        = (some ((t : ℚ) / 1000), some a)) ∧
    (∀ a : ℤ, parse_line (intToChars a) = (none, some a)) ∧
    (∀ line : List Char, pyStrip line = [] → parse_line line = (none, none)) ∧
    (∀ (line a b : List Char), splitComma (pyStrip line) = some (a, b) →
      pyInt a = none ∨ pyInt b = none → parse_line line = (none, none)) ∧
    (∀ line : List Char, splitComma (pyStrip line) = none →
      pyInt (pyStrip line) = none → parse_line line = (none, none)) ∧
    (∀ (line : List Char) (c : Char), isPySpace c = true →
      parse_line (c :: line) = parse_line line ∧
      parse_line (line ++ [c]) = parse_line line) := by
  have hsplit_ne : ∀ (line : List Char) (a b : List Char),
      splitComma (pyStrip line) = some (a, b) → pyStrip line ≠ [] := by
    intro line a b h he
    rw [he] at h
    simp [splitComma] at h
  have hstrip_congr : ∀ l1 l2 : List Char, pyStrip l1 = pyStrip l2 →
      parse_line l1 = parse_line l2 := by
    intro l1 l2 h
    unfold parse_line
    rw [h]
  refine ⟨?_, ?_, ?_, ?_, ?_, ?_⟩
  · intro t a
    have hne : intToChars t ++ ',' :: intToChars a ≠ [] := by simp
    simp [parse_line, pyStrip_intToChars_pair t a, hne,
      splitComma_append (intToChars a) (intToChars t) (intToChars_no_comma t),
      pyInt_intToChars t, pyInt_intToChars a]
  · intro a
    simp [parse_line, pyStrip_intToChars a, intToChars_ne_nil a,
      splitComma_none (intToChars a) (intToChars_no_comma a),
      pyInt_intToChars a]
  · intro line h
    simp [parse_line, h]
  · intro line a b h h2
    have hne := hsplit_ne line a b h
    rcases h2 with h2 | h2
    · simp [parse_line, hne, h, h2]
    · rcases hpa : pyInt a with _ | x <;> simp [parse_line, hne, h, h2, hpa]
  · intro line h h2
    by_cases he : pyStrip line = []
    · simp [parse_line, he]
    · simp [parse_line, he, h, h2]
  · intro line c hc
    constructor
    · exact hstrip_congr _ _ (by simp [pyStrip, List.dropWhile_cons, hc])
    · apply hstrip_congr
      by_cases he : (line.dropWhile isPySpace).isEmpty
      · have he' : line.dropWhile isPySpace = [] := by simpa using he
        simp [pyStrip, List.dropWhile_append, he', List.dropWhile_cons, hc]
      · have he' : (line.dropWhile isPySpace).isEmpty = false := by
          simpa using he
        simp [pyStrip, List.dropWhile_append, he', List.reverse_append,
          List.dropWhile_cons, hc]

theorem C3_parse_line_witness :
    parse_line (intToChars 12345 ++ ',' :: intToChars 512)
        = (some (((12345 : ℤ) : ℚ) / 1000), some 512) ∧
    parse_line [' '] = (none, none) :=
  ⟨C3_parse_line.1 12345 512, C3_parse_line.2.2.1 [' '] (by decide)⟩

/-! ### Sample-rate estimation -/

theorem arithSeq_head (a d : ℚ) (m : ℕ) : ∃ rest, arithSeq a d m = a :: rest := by
  cases m <;> exact ⟨_, rfl⟩

theorem deltas_cons₂ (x y : ℚ) (rest : List ℚ) :
    deltas (x :: y :: rest) = (y - x) :: deltas (y :: rest) := rfl

theorem deltas_arithSeq (d : ℚ) :
    ∀ (m : ℕ) (a : ℚ), deltas (arithSeq a d m) = List.replicate m d := by
  intro m
  induction m with
  | zero => intro a; rfl
  | succ m ih =>
    intro a
    obtain ⟨rest, hrest⟩ := arithSeq_head (a + d) d m
    rw [show arithSeq a d (m + 1) = a :: arithSeq (a + d) d m from rfl, hrest,
      deltas_cons₂, ← hrest, ih (a + d), List.replicate_succ]
    congr 1
    ring

theorem filter_replicate_of_neg (p : ℚ → Bool) (x : ℚ) (hp : p x = false) :
    ∀ m : ℕ, (List.replicate m x).filter p = [] := by
  intro m
  induction m with
  | zero => rfl
  | succ m ih => rw [List.replicate_succ, List.filter_cons, hp]; exact ih

theorem filter_replicate_of_pos (p : ℚ → Bool) (x : ℚ) (hp : p x = true) :
    ∀ m : ℕ, (List.replicate m x).filter p = List.replicate m x := by
  intro m
  induction m with
  | zero => rfl
  | succ m ih =>
    rw [List.replicate_succ, List.filter_cons, hp]
    simp [ih]

theorem insertionSort_replicate (d : ℚ) :
    ∀ m : ℕ, (List.replicate m d).insertionSort (· ≤ ·) = List.replicate m d := by
  intro m
  induction m with
  | zero => rfl
  | succ m ih =>
    rw [List.replicate_succ, List.insertionSort, ih]
    cases m with
    | zero => rfl
    | succ k =>
      rw [List.replicate_succ, List.orderedInsert, if_pos le_rfl]

theorem median_replicate (d : ℚ) (m : ℕ) (hm : 1 ≤ m) :
    median (List.replicate m d) = d := by
  simp only [median, insertionSort_replicate d m, List.length_replicate,
    List.getElem?_replicate]
  by_cases hp : m % 2 = 1
  · rw [if_pos hp, if_pos (by omega)]
    rfl
  · rw [if_neg hp, if_pos (by omega), if_pos (by omega)]
    show (d + d) / 2 = d
    ring

/-- C4, amended: the estimator keeps only deltas in the open interval
(0, 1) second, falls back when at most 10 valid deltas remain, and
otherwise returns `1 / median`; hence for constant spacing `d` it returns
`1/d` exactly when `0 < d < 1` and at least 11 deltas are present, and it
returns the fallback exactly whenever at most 10 valid deltas remain. -/
theorem C4_rate_estimator :
    (∀ (a d fb : ℚ) (m : ℕ), 0 < d → d < 1 → 10 < m →
      estimate_fs (arithSeq a d m) fb = 1 / d) ∧
    (∀ (t : List ℚ) (fb : ℚ), (validDeltas t).length ≤ 10 →
      estimate_fs t fb = fb) := by
  constructor
  · intro a d fb m h0 h1 hm
    have hv : validDeltas (arithSeq a d m) = List.replicate m d := by
      rw [validDeltas, deltas_arithSeq d m a]
      exact filter_replicate_of_pos _ d (by simp [h0, h1]) m
    simp only [estimate_fs, hv, List.length_replicate]
    rw [if_pos hm, median_replicate d m (by omega)]
  · intro t fb h
    simp only [estimate_fs]
    rw [if_neg (by omega)]

/-- C4, counterexample: with constant spacing `d = 2` seconds and 11
deltas present, every delta is discarded by the `< 1.0` guard, so the
estimator returns the fallback 1000 Hz and not `1/d = 1/2`. -/
theorem C4_counterexample :
    estimate_fs (arithSeq 0 2 11) 1000 = 1000 ∧ (1000 : ℚ) ≠ 1 / 2 := by
  constructor
  · have hp : (fun x : ℚ => decide (0 < x) && decide (x < 1)) 2 = false := by
      norm_num
    have hv : validDeltas (arithSeq 0 2 11) = [] := by
      rw [validDeltas, deltas_arithSeq 2 11 0]
      exact filter_replicate_of_neg _ 2 hp 11
    simp only [estimate_fs, hv, List.length_nil]
    norm_num
  · norm_num

theorem C4_rate_estimator_witness :
    estimate_fs (arithSeq 0 (1 / 2) 11) 777 = 1 / (1 / 2) ∧
    estimate_fs [0] 777 = 777 :=
  ⟨C4_rate_estimator.1 0 (1 / 2) 777 11 one_half_pos one_half_lt_one (by decide),
   C4_rate_estimator.2 [0] 777 (by decide)⟩

/-! ### Binary framing -/

theorem twoStepInd {α : Type} {P : List α → Prop} (l : List α) (h0 : P [])
    (h1 : ∀ b, P [b]) (h2 : ∀ a b t, P t → P (a :: b :: t)) : P l :=
  match l with
  | [] => h0
  | [b] => h1 b
  | a :: b :: t => h2 a b t (twoStepInd t h0 h1 h2)

theorem decodePairs_cons₂ (lo hi : ℕ) (rest : List ℕ) :
    decodePairs (lo :: hi :: rest)
      = (u16le lo hi :: (decodePairs rest).1, (decodePairs rest).2) := rfl

theorem decodePairs_short : ∀ l : List ℕ, l.length ≤ 1 → decodePairs l = ([], l)
  | [], _ => rfl
  | [_], _ => rfl
  | _ :: _ :: t, h => by simp at h

theorem decodePairs_spec (l : List ℕ) :
    (decodePairs l).1.length = l.length / 2 ∧
    (decodePairs l).2 = l.drop (2 * (l.length / 2)) ∧
    (decodePairs l).2.length = l.length % 2 := by
  induction l using twoStepInd with
  | h0 =>
    have hs : decodePairs ([] : List ℕ) = ([], []) := rfl
    exact ⟨by simp [hs], by simp [hs], by simp [hs]⟩
  | h1 b =>
    have hs : decodePairs [b] = ([], [b]) := rfl
    exact ⟨by simp [hs], by simp [hs], by simp [hs]⟩
  | h2 a b t ih =>
    rw [decodePairs_cons₂]
    refine ⟨?_, ?_, ?_⟩
    · simp only [List.length_cons, ih.1]
      omega
    · have h4 : 2 * ((a :: b :: t).length / 2) = 2 * (t.length / 2) + 1 + 1 := by
        simp only [List.length_cons]
        omega
      rw [h4, List.drop_succ_cons, List.drop_succ_cons]
      exact ih.2.1
    · simp only [List.length_cons, ih.2.2]
      omega

theorem decodePairs_index (l : List ℕ) :
    ∀ i lo hi : ℕ, l[2 * i]? = some lo → l[2 * i + 1]? = some hi →
      (decodePairs l).1[i]? = some (u16le lo hi) := by
  induction l using twoStepInd with
  | h0 => intro i lo hi h1 _; simp at h1
  | h1 b =>
    intro i lo hi h1 h2
    cases i with
    | zero => simp at h2
    | succ j =>
      rw [List.getElem?_eq_none (by simp; omega)] at h1
      cases h1
  | h2 a b t ih =>
    intro i lo hi h1 h2
    cases i with
    | zero =>
      simp only [Nat.mul_zero, List.getElem?_cons_zero, Option.some.injEq] at h1
      simp only [Nat.mul_zero, Nat.zero_add, List.getElem?_cons_succ,
        List.getElem?_cons_zero, Option.some.injEq] at h2
      rw [decodePairs_cons₂, h1, h2]
      simp
    | succ j =>
      rw [decodePairs_cons₂, List.getElem?_cons_succ]
      apply ih j lo hi
      · have he : 2 * (j + 1) = 2 * j + 1 + 1 := by omega
        rw [he, List.getElem?_cons_succ, List.getElem?_cons_succ] at h1
        exact h1
      · have he : 2 * (j + 1) + 1 = 2 * j + 1 + 1 + 1 := by omega
        rw [he, List.getElem?_cons_succ, List.getElem?_cons_succ] at h2
        exact h2

/-- C5: on every read, the decoder interprets the accumulated bytes
`pending ++ chunk` as unsigned 16-bit little-endian integers: it emits
one sample per complete 2-byte group (`⌊len/2⌋` of them, sample `i` being
`byte[2i] + 256 * byte[2i+1]`, in stream order) and retains exactly the
trailing `len % 2` bytes for the next read. -/
theorem C5_binary_framing :
    (∀ pending chunk : List ℕ,
      (decodePairs (pending ++ chunk)).1.length = (pending ++ chunk).length / 2) ∧
    (∀ (pending chunk : List ℕ) (i lo hi : ℕ),
      (pending ++ chunk)[2 * i]? = some lo →
      (pending ++ chunk)[2 * i + 1]? = some hi →
      (decodePairs (pending ++ chunk)).1[i]? = some (u16le lo hi)) ∧
    (∀ pending chunk : List ℕ,
      (decodePairs (pending ++ chunk)).2
          = (pending ++ chunk).drop (2 * ((pending ++ chunk).length / 2)) ∧
      (decodePairs (pending ++ chunk)).2.length = (pending ++ chunk).length % 2) :=
  ⟨fun p c => (decodePairs_spec (p ++ c)).1,
   fun p c i lo hi h1 h2 => decodePairs_index (p ++ c) i lo hi h1 h2,
   fun p c => ⟨(decodePairs_spec (p ++ c)).2.1, (decodePairs_spec (p ++ c)).2.2⟩⟩

theorem C5_binary_framing_witness :
    (decodePairs ([1] ++ [2, 3])).1[0]? = some (u16le 1 2) :=
  C5_binary_framing.2.1 [1] [2, 3] 0 1 2 (by decide) (by decide)

/-- C7: a malformed unit is never fatal — in text mode a line whose value
field does not parse leaves the whole loop state unchanged, and in binary
mode a read that leaves fewer than two accumulated bytes emits no sample
and leaves the window and hop counter unchanged (only the carry-over
`pending` retains the bytes). -/
theorem C7_decode_errors_nonfatal :
    (∀ (HOP : ℕ) (s : TextState) (line : List Char),
      (parse_line line).2 = none → textStep HOP s line = s) ∧
    (∀ (HOP : ℕ) (st : BinState) (chunk : List ℕ),
      (st.pending ++ chunk).length < 2 →
      (binStep HOP st chunk).buf = st.buf ∧
      (binStep HOP st chunk).new = st.new ∧
      (decodePairs (st.pending ++ chunk)).1 = []) := by
  constructor
  · intro HOP s line h
    simp [textStep, sampleStep, h]
  · intro HOP st chunk h
    have hs := decodePairs_short (st.pending ++ chunk) (by omega)
    by_cases hc : chunk = []
    · subst hc
      have hs2 : decodePairs st.pending = ([], st.pending) :=
        decodePairs_short st.pending (by simp at h; omega)
      simp [binStep, hs2]
    · simp [binStep, hc, hs]

theorem C7_decode_errors_nonfatal_witness :
    textStep 128 (initText 2) ['a', 'b'] = initText 2 ∧
    (binStep 256 ⟨[0, 0], [7], 0⟩ []).buf = [0, 0] :=
  ⟨C7_decode_errors_nonfatal.1 128 (initText 2) ['a', 'b'] (by decide),
   (C7_decode_errors_nonfatal.2 256 ⟨[0, 0], [7], 0⟩ [] (by decide)).1⟩

theorem decodePairs_append (l1 : List ℕ) : ∀ l2 : List ℕ,
    (decodePairs (l1 ++ l2)).1
        = (decodePairs l1).1 ++ (decodePairs ((decodePairs l1).2 ++ l2)).1 ∧
    (decodePairs (l1 ++ l2)).2 = (decodePairs ((decodePairs l1).2 ++ l2)).2 := by
  induction l1 using twoStepInd with
  | h0 =>
    intro l2
    have hs : decodePairs ([] : List ℕ) = ([], []) := rfl
    exact ⟨by simp [hs], by simp [hs]⟩
  | h1 b => intro l2; exact ⟨rfl, rfl⟩
  | h2 a b t ih =>
    intro l2
    constructor
    · simp only [List.cons_append, decodePairs_cons₂]
      rw [(ih l2).1]
    · simp only [List.cons_append, decodePairs_cons₂]
      exact (ih l2).2

theorem runDecode_eq :
    ∀ (chunks : List (List ℕ)) (p : List ℕ), p.length ≤ 1 →
      (runDecode p chunks).1 = (decodePairs (p ++ chunks.flatten)).1 ∧
      (runDecode p chunks).2 = (decodePairs (p ++ chunks.flatten)).2 := by
  intro chunks
  induction chunks with
  | nil =>
    intro p hp
    simp [runDecode, decodePairs_short p hp]
  | cons c cs ih =>
    intro p hp
    have hr2 : (decodePairs (p ++ c)).2.length ≤ 1 := by
      rw [(decodePairs_spec (p ++ c)).2.2]
      omega
    obtain ⟨ih1, ih2⟩ := ih (decodePairs (p ++ c)).2 hr2
    have happ1 := decodePairs_append (p ++ c) cs.flatten
    have hjoin : p ++ (c :: cs).flatten = (p ++ c) ++ cs.flatten := by
      simp [List.flatten_cons]
    constructor
    · simp only [runDecode, ih1, hjoin]
      exact happ1.1.symm
    · simp only [runDecode, ih2, hjoin]
      exact happ1.2.symm

/-- C10: binary decoding is invariant under chunk boundaries — for every
partition of the byte stream into read chunks, the loop emits the same
samples and ends with the same carry-over as decoding the whole stream at
once, and the carry-over holds at most one byte at the start of every
read iteration. -/
theorem C10_chunk_invariance (chunks : List (List ℕ)) :
    (runDecode [] chunks).1 = (decodePairs chunks.flatten).1 ∧
    (runDecode [] chunks).2 = (decodePairs chunks.flatten).2 ∧
    ∀ i : ℕ, ((runDecode [] (chunks.take i)).2).length ≤ 1 := by
  have h := runDecode_eq chunks [] (by simp)
  refine ⟨by simpa using h.1, by simpa using h.2, ?_⟩
  intro i
  have h2 := runDecode_eq (chunks.take i) [] (by simp)
  rw [h2.2]
  rw [(decodePairs_spec _).2.2]
  omega

/-! ### have_timestamps latch (C9) -/

theorem parse_line_fst_some_imp (line : List Char)
    (h : ((parse_line line).1).isSome = true) :
    ((parse_line line).2).isSome = true := by
  by_cases he : pyStrip line = []
  · simp [parse_line, he] at h
  · rcases hsc : splitComma (pyStrip line) with _ | ⟨a, b⟩
    · rcases hpi : pyInt (pyStrip line) with _ | v <;>
        simp [parse_line, he, hsc, hpi] at h ⊢
    · rcases hpa : pyInt a with _ | x <;> rcases hpb : pyInt b with _ | y <;>
        simp [parse_line, he, hsc, hpa, hpb] at h ⊢

theorem sampleStep_latch (HOP : ℕ) (s : TextState) (p : Option ℚ × Option ℤ)
    (h : s.have_timestamps = true) :
    (sampleStep HOP s p).have_timestamps = true := by
  obtain ⟨ots, oa⟩ := p
  rcases oa with _ | adc
  · simpa [sampleStep] using h
  · rcases ots with _ | ts <;>
      (simp only [sampleStep]; split <;> simp [h])

theorem textStep_latch (HOP : ℕ) (s : TextState) (line : List Char)
    (h : s.have_timestamps = true) :
    (textStep HOP s line).have_timestamps = true :=
  sampleStep_latch HOP s (parse_line line) h

theorem runText_latch (HOP : ℕ) (lines : List (List Char)) :
    ∀ s : TextState, s.have_timestamps = true →
      (runText HOP s lines).have_timestamps = true := by
  induction lines with
  | nil => intro s h; exact h
  | cons l ls ih =>
    intro s h
    exact ih (textStep HOP s l) (textStep_latch HOP s l h)

theorem textStep_sets (HOP : ℕ) (s : TextState) (line : List Char)
    (h : ((parse_line line).1).isSome = true) :
    (textStep HOP s line).have_timestamps = true := by
  have h2 := parse_line_fst_some_imp line h
  rcases hp : parse_line line with ⟨ots, oa⟩
  rw [hp] at h h2
  rcases ots with _ | ts
  · simp at h
  rcases oa with _ | adc
  · simp at h2
  simp only [textStep, hp, sampleStep]
  split <;> simp

/-- C9: once any line carrying a timestamp has been decoded, the
`have_timestamps` flag is set and stays set for the remainder of the run,
so every later analysis cycle selects the timestamp-based rate estimate
(`1/median` of the filtered deltas, with its own internal fallback) and
the fallback-only branch is never re-entered. -/
theorem C9_have_timestamps_latch (HOP : ℕ) (s0 : TextState)
    (pre post : List (List Char)) (line : List Char)
    (h : ((parse_line line).1).isSome = true) :
    (runText HOP s0 (pre ++ line :: post)).have_timestamps = true ∧
    fsForCycle (runText HOP s0 (pre ++ line :: post))
      = estimate_fs (runText HOP s0 (pre ++ line :: post)).t FS_FALLBACK := by
  have hset : (runText HOP s0 (pre ++ line :: post)).have_timestamps = true := by
    rw [runText, List.foldl_append, List.foldl_cons]
    exact runText_latch HOP post _ (textStep_sets HOP _ line h)
  exact ⟨hset, by rw [fsForCycle, if_pos hset]⟩

theorem C9_have_timestamps_latch_witness :
    (runText 128 (initText 2) ([] ++ ['1', ',', '2'] :: [])).have_timestamps = true ∧
    fsForCycle (runText 128 (initText 2) ([] ++ ['1', ',', '2'] :: []))
      = estimate_fs (runText 128 (initText 2) ([] ++ ['1', ',', '2'] :: [])).t
          FS_FALLBACK :=
  C9_have_timestamps_latch 128 (initText 2) [] [] ['1', ',', '2'] (by decide)

/-! ### Timestamp/value alignment (C6) -/

theorem forall₂_tail {α β : Type} {R : α → β → Prop} {l1 : List α} {l2 : List β}
    (h : List.Forall₂ R l1 l2) : List.Forall₂ R l1.tail l2.tail := by
  cases h with
  | nil => exact List.Forall₂.nil
  | cons _ hF => exact hF

theorem forall₂_replicate {α β : Type} {R : α → β → Prop} (e : α) (x : β)
    (hR : R e x) : ∀ N : ℕ, List.Forall₂ R (List.replicate N e) (List.replicate N x) := by
  intro N
  induction N with
  | zero => exact List.Forall₂.nil
  | succ k ih => exact List.Forall₂.cons hR ih

theorem forall₂_getElem? {α β : Type} {R : α → β → Prop} :
    ∀ {l1 : List α} {l2 : List β}, List.Forall₂ R l1 l2 →
      ∀ (i : ℕ) (a : α), l1[i]? = some a → ∃ b, l2[i]? = some b ∧ R a b := by
  intro l1 l2 h
  induction h with
  | nil => intro i a ha; simp at ha
  | cons hR hF ih =>
    intro i a ha
    cases i with
    | zero =>
      simp only [List.getElem?_cons_zero, Option.some.injEq] at ha
      exact ⟨_, by simp, ha ▸ hR⟩
    | succ j =>
      rw [List.getElem?_cons_succ] at ha
      obtain ⟨b, hb, hRb⟩ := ih j a ha
      exact ⟨b, by rwa [List.getElem?_cons_succ], hRb⟩

theorem aligned_invariant (HOP : ℕ) :
    ∀ ps : List (Option ℚ × Option ℤ), (∀ p ∈ ps, (p.1).isSome = true) →
    ∀ (s : TextState) (g : List (Option ℚ × ℚ)),
      List.Forall₂ (fun e x => ∀ τ : ℚ, e.1 = some τ → x = τ) g s.t →
      List.Forall₂ (fun e x => ∀ τ : ℚ, e.1 = some τ → x = τ)
        (ps.foldl alignedStep g) ((ps.foldl (sampleStep HOP) s).t) := by
  intro ps
  induction ps with
  | nil => intro _ s g hf; exact hf
  | cons p ps ih =>
    intro hall s g hf
    have hp1 := hall p (List.mem_cons_self p ps)
    obtain ⟨ots, oa⟩ := p
    rcases oa with _ | adc
    · exact ih (fun q hq => hall q (List.mem_cons_of_mem _ hq)) _ _ hf
    · rcases ots with _ | τ
      · simp at hp1
      · apply ih fun q hq => hall q (List.mem_cons_of_mem _ hq)
        have ht : (sampleStep HOP s (some τ, some adc)).t = push s.t τ := by
          simp only [sampleStep]
          split <;> rfl
        rw [ht]
        rw [show alignedStep g (some τ, some adc)
            = push g (some τ, adc_to_volts adc) from rfl]
        exact List.rel_append (forall₂_tail hf)
          (List.Forall₂.cons (fun τ' hτ => Option.some.inj hτ) List.Forall₂.nil)

/-- C6, amended: the length invariant holds and the timestamp buffer is
index-aligned with the value buffer provided every decoded sample carries
a timestamp; a bare (untimestamped) line advances the value buffer
without advancing the timestamp buffer, which breaks alignment (see the
counterexample). -/
theorem C6_timestamp_alignment (N HOP : ℕ) (ps : List (Option ℚ × Option ℤ))
    (h : ∀ p ∈ ps, (p.1).isSome = true) : tsAligned N HOP ps := by
  have hf := aligned_invariant HOP ps h (initText N)
    (List.replicate N ((none : Option ℚ), (0 : ℚ)))
    (forall₂_replicate _ _ (fun τ hτ => by cases hτ) N)
  constructor
  · exact hf.length_eq.symm
  · intro i τ v hg
    obtain ⟨x, hx, hRx⟩ := forall₂_getElem? hf i (some τ, v) hg
    show (List.foldl (sampleStep HOP) (initText N) ps).t[i]? = some τ
    rw [hx, hRx τ rfl]

/-- C6, counterexample: with `N = 2`, pushing a timestamped sample
`(1s, adc 10)` and then a bare sample `(–, adc 20)` leaves the value
buffer `[v10, v20]` but the timestamp buffer `[0, 1]`: index 0 holds the
sample pushed with timestamp 1 while `t[0] = 0`, so the buffers are not
index-aligned under this interleaving. -/
theorem C6_counterexample :
    ¬ tsAligned 2 128 [(some 1, some 10), (none, some 20)] := by
  intro h
  have h2 := h.2 0 1 (adc_to_volts 10) rfl
  have h3 : (runSamples 128 (initText 2)
      [(some 1, some 10), (none, some 20)]).t[0]? = some 0 := rfl
  rw [h3] at h2
  exact absurd (Option.some.inj h2) (by norm_num)

theorem C6_timestamp_alignment_witness :
    tsAligned 2 128 [(some 1, some 10)] :=
  C6_timestamp_alignment 2 128 [(some 1, some 10)] (by decide)

/-! ### Spectral magnitude scaling (C2) -/

theorem magPipeline_length (N : ℕ) (xw : List ℝ) :
    (magPipeline N xw).length = N / 2 + 1 := by
  simp [magPipeline, rfft]

theorem magPipeline_getElem (N : ℕ) (xw : List ℝ) (k : ℕ) (hk : k < N / 2 + 1) :
    (magPipeline N xw)[k]? = some (specMagnitude N xw k) := by
  simp only [magPipeline, rfft, List.map_map, List.range_succ_eq_map,
    List.map_cons, List.modifyHead_cons]
  cases k with
  | zero =>
    simp only [List.getElem?_cons_zero, Option.some.injEq, Function.comp]
    rw [specMagnitude, if_pos rfl]
  | succ j =>
    have hj : j < N / 2 := by omega
    simp only [List.getElem?_cons_succ, List.map_map, List.getElem?_map,
      List.getElem?_range hj, Option.map_some', Function.comp]
    simp [specMagnitude]

/-- C2: in both scripts, every one-sided spectrum bin `k ∈ [0, N/2]`
equals `|X[k]| / (N * coherent_gain) * 2` where `X` is the one-sided DFT
of the Hann-windowed signal (in fft2.py the signal is first demeaned) and
`coherent_gain` is the mean of the Hann coefficients, with the DC bin
`k = 0` additionally halved after that scaling; the spectrum has exactly
`N/2 + 1` bins. -/
theorem C2_magnitude_scaling (N : ℕ) (x buf : List ℝ) (k : ℕ)
    (_hx : x.length = N) (_hbuf : buf.length = N) (hk : k ≤ N / 2) :
    (magText N x).length = N / 2 + 1 ∧
    (magText N x)[k]?
      = some (specMagnitude N (List.zipWith (· * ·) x (hanning N)) k) ∧
    (magBin N buf)[k]?
      = some (specMagnitude N
          (List.zipWith (· * ·)
            (buf.map fun v => v - buf.sum / buf.length) (hanning N)) k) := by
  have hk' : k < N / 2 + 1 := by omega
  exact ⟨magPipeline_length N _, magPipeline_getElem N _ k hk',
    magPipeline_getElem N _ k hk'⟩

theorem C2_magnitude_scaling_witness :
    (magText 4 (List.replicate 4 0)).length = 4 / 2 + 1 ∧
    (magText 4 (List.replicate 4 0))[0]?
      = some (specMagnitude 4
          (List.zipWith (· * ·) (List.replicate 4 0) (hanning 4)) 0) ∧
    (magBin 4 (List.replicate 4 0))[0]?
      = some (specMagnitude 4
          (List.zipWith (· * ·)
            ((List.replicate 4 0).map fun v =>
              v - (List.replicate 4 0).sum / (List.replicate 4 0).length)
            (hanning 4)) 0) :=
  C2_magnitude_scaling 4 (List.replicate 4 0) (List.replicate 4 0) 0
    (by simp) (by simp) (by omega)

end Fft
